import Mathlib

/-!
Verification of the keyword-trends utility and the request-validation logic of
the marketing-agent repository (files `keyword_agent/tools.py` and
`gradio_app.py`), as a shallow embedding in Lean.

The pytrends provider (network object constructed by `TrendReq` and driven by
`build_payload` / `interest_over_time` / `related_queries`) is modelled by an
oracle `Env`: for each batch call it either raises an exception (with a
message) or returns the interest-over-time columns and the related-queries
tables.  The request parameters (`sprache`, `zeitraum`, `land`) only influence
the provider's behaviour, which the oracle already determines, so theorems
quantifying over `Env` cover every choice of those parameters.

Numeric time-series cells are modelled as exact rationals (pandas holds
float64 there; the mean/rounding arithmetic is embedded exactly), `NaN` cells
(dropped by `dropna`) as `Cell.nan`, and cells whose presence makes
`float(series.mean())` raise (e.g. non-numeric dtype) as `Cell.bad`.
Python's `round` (banker's rounding, half to even) is embedded as `pyRound`.

Character-level approximations: Python's `str.strip`, `re \s`, `str.lower`
and the regex word class `\w` act on full Unicode; the embedding uses the
ASCII subset (`isPySpace`, `Char.toLower`, `isWordChar`), which is faithful
on the ASCII strings all claims are evaluated on.
-/

namespace KeywordAgent

section
/- Batteries marks the `Rat` field operations irreducible, which blocks
kernel evaluation of concrete trend indices; restore the default so that
witnesses evaluate by `decide`. -/
attribute [local semireducible] Rat.add Rat.sub Rat.mul Rat.inv

/-! ### Small utilities from `tools.py` -/

/-- Python whitespace class (ASCII part of `\s` and `str.strip`). -/
def isPySpace (c : Char) : Bool :=
  c = ' ' || c = '\t' || c = '\n' || c = '\r' || c = '\x0b' || c = '\x0c'

/-- Python `str.strip()` on the character list. -/
def pyStripChars (l : List Char) : List Char :=
  ((l.dropWhile isPySpace).reverse.dropWhile isPySpace).reverse

/-- Replace every maximal run of whitespace by a single blank,
mirroring Python `re.sub(r"\s+", " ", s)`. -/
def collapseWS : List Char → List Char
  | [] => []
  | [c] => if isPySpace c then [' '] else [c]
  | c1 :: c2 :: rest =>
    if isPySpace c1 && isPySpace c2 then collapseWS (c2 :: rest)
    else (if isPySpace c1 then ' ' else c1) :: collapseWS (c2 :: rest)

/-- Specification helper (not part of the source): no two adjacent
whitespace characters occur in the list. -/
def noTwoSpaces : List Char → Bool
  | [] => true
  | [_] => true
  | c1 :: c2 :: rest => !(isPySpace c1 && isPySpace c2) && noTwoSpaces (c2 :: rest)

/-- The source helper `_normalisiere_keyword`: strip, then collapse inner whitespace. -/
def normalisiere_keyword (keyword : String) : String :=
  String.mk (collapseWS (pyStripChars keyword.data))

/-- Python `str.strip` on strings (used by `gradio_app.py`). -/
def pyStrip (s : String) : String := String.mk (pyStripChars s.data)

/-- Worker of `_dedupe_preserve_order`, carrying the `seen` set. -/
def dedupeAux : List String → List String → List String
  | _, [] => []
  | seen, x :: xs =>
    if x ∈ seen then dedupeAux seen xs else x :: dedupeAux (x :: seen) xs

/-- The source helper `_dedupe_preserve_order`. -/
def dedupe_preserve_order (items : List String) : List String := dedupeAux [] items

/-- The regex word class `\w` (ASCII part). -/
def isWordChar (c : Char) : Bool := c.isAlpha || c.isDigit || c = '_'

/-- The alternatives of the three `_VERBOTENE_MUSTER` regexes; each regex is a
`\b(...)\b` alternation of these literal phrases, and every phrase starts and
ends with a word character, so `re.search` succeeds iff some phrase occurs
with word boundaries on both sides. -/
def verbotene_phrasen : List (List Char) :=
  ["kokain".data, "heroin".data, "meth".data, "crystal".data,
   "drogen kaufen".data, "waffe kaufen".data, "schusswaffe".data,
   "bombenbau".data, "kindesmissbrauch".data]

/-- Phrase `p` occurs in `l` at position `i` with `\b` on both sides. -/
def boundedMatchAt (l : List Char) (i : Nat) (p : List Char) : Bool :=
  ((l.drop i).take p.length == p)
  && (i == 0 || !(isWordChar (l.getD (i - 1) ' ')))
  && (i + p.length == l.length || !(isWordChar (l.getD (i + p.length) ' ')))

/-- Some forbidden phrase matches somewhere in `l`. -/
def hatVerbotenesMuster (l : List Char) : Bool :=
  verbotene_phrasen.any (fun p =>
    (List.range (l.length + 1)).any (fun i => boundedMatchAt l i p))

/-- The source helper `brand_safety_ok`: lowercase the keyword and reject it when one of the
denylist regexes matches. -/
def brand_safety_ok (keyword : String) : Bool :=
  !(hatVerbotenesMuster (keyword.data.map Char.toLower))

/-- The cleaning pipeline at the head of `get_trend_daten_fuer_keywords`
(lines 93-96): normalise, keep non-empty brand-safe entries, deduplicate
preserving first-seen order. -/
def cleanKeywords (keywords : List String) : List String :=
  dedupe_preserve_order
    ((keywords.map normalisiere_keyword).filter
      (fun k => !(k == "") && brand_safety_ok k))

/-! ### The provider oracle -/

/-- One cell of an interest-over-time column. -/
inductive Cell
  | num (q : ℚ)
  | nan
  | bad
deriving DecidableEq, Repr

def Cell.isNan : Cell → Bool
  | .nan => true
  | _ => false

def Cell.isBad : Cell → Bool
  | .bad => true
  | _ => false

def Cell.val? : Cell → Option ℚ
  | .num q => some q
  | _ => none

/-- One entry of a related-queries `query` column (`isinstance(x, str)` is
checked by the code, so non-strings are represented abstractly). -/
inductive PyVal
  | str (s : String)
  | nonstr
deriving DecidableEq, Repr

def PyVal.str? : PyVal → Option String
  | .str s => some s
  | _ => none

/-- A related-queries dataframe slot: `absent` is Python `None`; `table rows`
is a dataframe with the given `query` column; `malformed` is a non-empty
dataframe on which the `["query"]` access raises. -/
inductive RelTable
  | absent
  | table (rows : List PyVal)
  | malformed
deriving DecidableEq, Repr

/-- The value `related_queries()[kw]`: a dict with `rising` and `top`. -/
structure RelatedQ where
  rising : RelTable
  top : RelTable
deriving DecidableEq, Repr

/-- One entry of the returned `ergebnisse` list. -/
structure Record where
  keyword : String
  trend_index : Option Int
  suchvolumen : Option Int
  verwandte_suchanfragen : List String
deriving DecidableEq, Repr

/-- The dictionary returned by `get_trend_daten_fuer_keywords`. -/
structure TrendResult where
  trends_verfuegbar : Bool
  ergebnisse : List Record
  hinweis : String
deriving DecidableEq, Repr

/-- Outcome of the provider interaction for one batch: either some call in
`build_payload` / `interest_over_time` / `related_queries` raises, or all
three return data. -/
inductive BatchResponse
  | throws (msg : String)
  | ok (iot : List (String × List Cell)) (related : List (String × RelatedQ))
deriving DecidableEq, Repr

def BatchResponse.isOk : BatchResponse → Bool
  | .ok _ _ => true
  | _ => false

/-- Column of a batch response, `none` when the batch raised. -/
def BatchResponse.colOf : BatchResponse → String → Option (List Cell)
  | .throws _, _ => none
  | .ok iot _, kw => iot.lookup kw

/-- Related-queries entry of a batch response. -/
def BatchResponse.relOf : BatchResponse → String → Option RelatedQ
  | .throws _, _ => none
  | .ok _ related, kw => related.lookup kw

/-- The provider oracle: behaviour of the import/`TrendReq` construction and
of each numbered batch interaction. -/
structure Env where
  initFail : Option String
  batch : Nat → BatchResponse

/-! ### Per-keyword extraction (lines 129-166) -/

/-- Python `round` on an exact rational: round half to even.  (`Rat.floor`
is used instead of the `⌊·⌋` notation so that the definition evaluates inside
the kernel; the two agree by `Rat.floor_def`.) -/
def pyRound (q : ℚ) : Int :=
  if q - q.floor < 1 / 2 then q.floor
  else if 1 / 2 < q - q.floor then q.floor + 1
  else if q.floor % 2 = 0 then q.floor else q.floor + 1

/-- Pandas `series.mean()`, exactly. -/
def ratMean (l : List ℚ) : ℚ := l.sum / (l.length : ℚ)

/-- Lines 130-138: look the keyword up among the columns, drop nulls, take
the rounded mean; any exception (a `bad` cell) is caught and yields `none`. -/
def computeTrendIndex (iot : List (String × List Cell)) (kw : String) : Option Int :=
  match iot.lookup kw with
  | none => none
  | some col =>
    if col.filter (fun c => !(c.isNan)) = [] then none
    else if (col.filter (fun c => !(c.isNan))).any Cell.isBad then none
    else some (pyRound (ratMean ((col.filter (fun c => !(c.isNan))).filterMap Cell.val?)))

/-- Pandas `df.head(n).tolist()`: first `n` rows, and for negative `n` all
but the last `|n|` rows. -/
def headRows (n : Int) (rows : List PyVal) : List PyVal :=
  if 0 ≤ n then rows.take n.toNat else rows.take (rows.length - (-n).toNat)

/-- Lines 147-148: contribution of the `rising` table; `none` models the
exception raised by accessing the `query` column of a malformed dataframe. -/
def risingStep (t : RelTable) (maxV : Int) : Option (List PyVal) :=
  match t with
  | .absent => some []
  | .table rows => if rows = [] then some [] else some (headRows maxV rows)
  | .malformed => none

/-- Lines 149-151: contribution of the `top` table, only consulted while
fewer than `max_verwandte` entries were collected. -/
def topStep (t : RelTable) (maxV : Int) (v : List PyVal) : Option (List PyVal) :=
  match t with
  | .absent => some v
  | .table rows =>
    if rows ≠ [] ∧ (v.length : Int) < maxV then
      some (v ++ headRows (maxV - (v.length : Int)) rows)
    else some v
  | .malformed =>
    if (v.length : Int) < maxV then none else some v

/-- Lines 153-155: keep strings only, normalise, filter empty and unsafe
entries, deduplicate. -/
def nachbearbeiteVerwandte (v : List PyVal) : List String :=
  dedupe_preserve_order
    (((v.filterMap PyVal.str?).map normalisiere_keyword).filter
      (fun x => !(x == "") && brand_safety_ok x))

/-- Body of the `try` block of lines 141-155; `none` is a raised exception. -/
def tryVerwandte (rq : RelatedQ) (maxV : Int) : Option (List String) :=
  match risingStep rq.rising maxV with
  | none => none
  | some v1 =>
    match topStep rq.top maxV v1 with
    | none => none
    | some v2 => some (nachbearbeiteVerwandte v2)

/-- Lines 140-157: the `except` arm resets `verwandte` to the empty list. -/
def computeVerwandte (rq : RelatedQ) (maxV : Int) : List String :=
  (tryVerwandte rq maxV).getD []

/-- Lines 129-166: the record appended for one keyword of a batch
(`related.get(kw, {})` defaults both tables to absent). -/
def mkRecord (iot : List (String × List Cell)) (related : List (String × RelatedQ))
    (maxV : Int) (kw : String) : Record :=
  ⟨kw, computeTrendIndex iot kw, none,
    computeVerwandte ((related.lookup kw).getD ⟨.absent, .absent⟩) maxV⟩

/-! ### Batching (lines 116-166) -/

/-- Structural-fuel worker for splitting into batches of `BATCH_SIZE = 5`. -/
def chunksFuel : Nat → List String → List (List String)
  | _, [] => []
  | 0, _ :: _ => []
  | fuel + 1, x :: xs => ((x :: xs).take 5) :: chunksFuel fuel ((x :: xs).drop 5)

/-- Batches `cleaned[i : i + 5]` for `i = 0, 5, 10, ...`. -/
def chunks (l : List String) : List (List String) := chunksFuel l.length l

/-- The batch loop: stop at the first batch whose provider calls raise,
otherwise append one record per batch keyword. -/
def runChunks (env : Env) (maxV : Int) : Nat → List (List String) → Except String (List Record)
  | _, [] => .ok []
  | i, b :: bs =>
    match env.batch i with
    | .throws msg => .error msg
    | .ok iot related =>
      match runChunks env maxV (i + 1) bs with
      | .error msg => .error msg
      | .ok rest => .ok (b.map (mkRecord iot related maxV) ++ rest)

/-- The whole `try` block of lines 107-172 up to the success return: the
module import and `TrendReq` construction may raise, then the batches run. -/
def runProvider (env : Env) (cleaned : List String) (maxV : Int) :
    Except String (List Record) :=
  match env.initFail with
  | some msg => .error msg
  | none => runChunks env maxV 0 (chunks cleaned)

/-! ### The tool itself (lines 62-188) -/

def hinweisKeineKeywords : String :=
  "Keine gültigen Keywords für Trends-Abfrage vorhanden."

def hinweisErfolg : String :=
  "trend_index ist ein Proxy (0-100) aus Google Trends; echtes Suchvolumen ist hier nicht enthalten."

def hinweisFallbackVorsatz : String :=
  "Trends-Abfrage nicht verfügbar (pytrends Fehler): "

/-- One entry of the exception-fallback `ergebnisse` (lines 179-185). -/
def fallbackRecord (k : String) : Record := ⟨k, none, none, []⟩

/-- The tool `get_trend_daten_fuer_keywords`.  The `_land`, `_zeitraum` and `_sprache`
request parameters are threaded through for signature fidelity; they only
shape the provider's behaviour, which the `env` oracle already fixes. -/
def get_trend_daten_fuer_keywords (env : Env) (keywords : List String)
    (_land _zeitraum _sprache : String) (max_verwandte : Int) : TrendResult :=
  let cleaned := cleanKeywords keywords
  if cleaned = [] then ⟨false, [], hinweisKeineKeywords⟩
  else
    match runProvider env cleaned max_verwandte with
    | .ok ergebnisse => ⟨true, ergebnisse, hinweisErfolg⟩
    | .error msg =>
      ⟨false, cleaned.map fallbackRecord, hinweisFallbackVorsatz ++ msg⟩

/-- Specification helper: the import and session construction succeed and no
batch among the first `n` raises. -/
def providerOk (env : Env) (n : Nat) : Prop :=
  env.initFail = none ∧ ∀ j, j < n → (env.batch j).isOk = true

instance providerOkDecidable (env : Env) (n : Nat) : Decidable (providerOk env n) :=
  inferInstanceAs
    (Decidable (env.initFail = none ∧ ∀ j, j < n → (env.batch j).isOk = true))

/-- Specification helper: the guarded trend-index extraction of lines
131-138 raises (a cell surviving `dropna` makes `series.mean()` raise). -/
def trendExtractionRaises (iot : List (String × List Cell)) (kw : String) : Bool :=
  match iot.lookup kw with
  | none => false
  | some col => (col.filter (fun c => !(c.isNan))).any Cell.isBad

/-- Specification helper: the related-queries extraction of lines 141-155
raises. -/
def relatedExtractionRaises (rq : RelatedQ) (maxV : Int) : Bool :=
  (tryVerwandte rq maxV).isNone

/-! ### Request validation (`gradio_app.py`, `process_request_async`) -/

/-- An age value as handed to `int(...)`: either it converts to an integer or
the conversion raises. -/
inductive PyNum
  | int (n : Int)
  | invalid
deriving DecidableEq, Repr

def toIntPy : PyNum → Option Int
  | .int n => some n
  | .invalid => none

/-- What `process_request_async` hands back: either the fixed
`_make_error_outputs` tuple for a message, or the outputs assembled from the
runner's accumulated `state_delta` dictionary (the assembly itself - JSON
parsing, table, chart `exec` - is outside the modelled fragment). -/
inductive ProcOutput
  | errorOut (msg : String)
  | completed (results : List (String × String))
deriving DecidableEq

/-- Result of one request plus the trace of agent-runner invocations made. -/
structure ProcResult where
  output : ProcOutput
  runner_calls : List (String × String × Int × Int)
deriving DecidableEq

def fehlerThema : String := "Bitte ein Thema eingeben."

def fehlerGanzzahl : String := "Alterswerte müssen ganze Zahlen sein."

def fehlerAltersbereich : String :=
  "Bitte einen gültigen Altersbereich angeben (min <= max, beide >= 0)."

/-- Lines 103-116 of `gradio_app.py`: reject blank topics, non-integer ages
and invalid age ranges before the (recorded) runner invocation. -/
def process_request_async (runner : String → String → Int → Int → List (String × String))
    (thema artikeltext : String) (alter_min alter_max : PyNum) : ProcResult :=
  if pyStrip thema = "" then ⟨.errorOut fehlerThema, []⟩
  else
    match toIntPy alter_min, toIntPy alter_max with
    | some a, some b =>
      if a < 0 ∨ b < 0 ∨ a > b then ⟨.errorOut fehlerAltersbereich, []⟩
      else ⟨.completed (runner (pyStrip thema) artikeltext a b),
            [(pyStrip thema, artikeltext, a, b)]⟩
    | _, _ => ⟨.errorOut fehlerGanzzahl, []⟩

/-! ## Properties of the whitespace normalisation -/

theorem dropWhile_head_false {α : Type*} {p : α → Bool} {l t : List α} {c : α}
    (h : l.dropWhile p = c :: t) : p c = false := by
  induction l with
  | nil => simp at h
  | cons x xs ih =>
    rw [List.dropWhile_cons] at h
    by_cases hx : p x = true
    · rw [if_pos hx] at h
      exact ih h
    · rw [if_neg hx] at h
      cases h
      simpa using hx

theorem dropWhile_eq_self {α : Type*} {p : α → Bool} {l : List α}
    (h : ∀ c, l.head? = some c → p c = false) : l.dropWhile p = l := by
  cases l with
  | nil => rfl
  | cons x xs => rw [List.dropWhile_cons, h x rfl]; simp

theorem pyStripChars_front (l : List Char) :
    pyStripChars l <+: l.dropWhile isPySpace := by
  have hsuf : ((l.dropWhile isPySpace).reverse.dropWhile isPySpace) <:+
      (l.dropWhile isPySpace).reverse := List.dropWhile_suffix _
  have := List.reverse_prefix.mpr hsuf
  simpa [pyStripChars] using this

theorem pyStripChars_head {l t : List Char} {c : Char}
    (h : pyStripChars l = c :: t) : isPySpace c = false := by
  obtain ⟨t2, ht2⟩ := pyStripChars_front l
  rw [h] at ht2
  exact dropWhile_head_false ht2.symm

theorem pyStripChars_getLast {l : List Char} {c : Char}
    (h : (pyStripChars l).getLast? = some c) : isPySpace c = false := by
  unfold pyStripChars at h
  rw [List.getLast?_reverse] at h
  cases hd : ((l.dropWhile isPySpace).reverse.dropWhile isPySpace) with
  | nil => rw [hd] at h; simp at h
  | cons a s =>
    rw [hd] at h
    simp only [List.head?_cons, Option.some.injEq] at h
    subst h
    exact dropWhile_head_false hd

theorem pyStripChars_eq_self {l : List Char}
    (hh : ∀ c, l.head? = some c → isPySpace c = false)
    (hl : ∀ c, l.getLast? = some c → isPySpace c = false) :
    pyStripChars l = l := by
  unfold pyStripChars
  rw [dropWhile_eq_self hh]
  rw [dropWhile_eq_self (fun c hc => hl c (by rwa [List.head?_reverse] at hc))]
  exact List.reverse_reverse l

theorem collapseWS_ne_nil {l : List Char} (h : l ≠ []) : collapseWS l ≠ [] := by
  induction l with
  | nil => exact absurd rfl h
  | cons c1 rest ih =>
    cases rest with
    | nil => unfold collapseWS; split <;> simp
    | cons c2 rest2 =>
      unfold collapseWS
      by_cases hb : (isPySpace c1 && isPySpace c2) = true
      · rw [if_pos hb]
        exact ih (by simp)
      · rw [if_neg hb]
        simp

theorem collapseWS_head {l : List Char} {c : Char}
    (h : l.head? = some c) (hc : isPySpace c = false) :
    (collapseWS l).head? = some c := by
  cases l with
  | nil => simp at h
  | cons c1 rest =>
    simp only [List.head?_cons, Option.some.injEq] at h
    subst h
    cases rest with
    | nil => unfold collapseWS; rw [if_neg (by simp [hc])]; rfl
    | cons c2 rest2 =>
      unfold collapseWS
      rw [if_neg (by simp [hc])]
      simp [hc]

theorem noTwoSpaces_cons_of {e : Char} {R : List Char}
    (hR : noTwoSpaces R = true)
    (hhead : ∀ r, R.head? = some r → isPySpace e = false ∨ isPySpace r = false) :
    noTwoSpaces (e :: R) = true := by
  cases R with
  | nil => rfl
  | cons r0 R2 =>
    rcases hhead r0 rfl with h | h <;>
      simp [noTwoSpaces, h, hR]

theorem collapseWS_noTwoSpaces (l : List Char) : noTwoSpaces (collapseWS l) = true := by
  induction l with
  | nil => rfl
  | cons c1 rest ih =>
    cases rest with
    | nil => unfold collapseWS; split <;> rfl
    | cons c2 rest2 =>
      unfold collapseWS
      by_cases hb : (isPySpace c1 && isPySpace c2) = true
      · rw [if_pos hb]; exact ih
      · rw [if_neg hb]
        refine noTwoSpaces_cons_of ih ?_
        intro r hr
        by_cases h1 : isPySpace c1 = true
        · have h2 : isPySpace c2 = false := by
            cases h : isPySpace c2
            · rfl
            · exact absurd (by rw [h1, h]; rfl) hb
          right
          have hh := collapseWS_head (l := c2 :: rest2) (c := c2) rfl h2
          rw [hh] at hr
          cases hr
          exact h2
        · left
          rw [if_neg h1]
          simpa using h1

theorem collapseWS_blank {l : List Char} {c : Char}
    (hc : c ∈ collapseWS l) (hs : isPySpace c = true) : c = ' ' := by
  induction l with
  | nil => simp [collapseWS] at hc
  | cons c1 rest ih =>
    cases rest with
    | nil =>
      unfold collapseWS at hc
      by_cases h1 : isPySpace c1 = true
      · rw [if_pos h1] at hc
        simpa using hc
      · rw [if_neg h1] at hc
        simp only [List.mem_singleton] at hc
        subst hc
        exact absurd hs (by simpa using h1)
    | cons c2 rest2 =>
      unfold collapseWS at hc
      by_cases hb : (isPySpace c1 && isPySpace c2) = true
      · rw [if_pos hb] at hc; exact ih hc
      · rw [if_neg hb] at hc
        rcases List.mem_cons.mp hc with h | h
        · by_cases h1 : isPySpace c1 = true
          · rw [if_pos h1] at h; exact h
          · rw [if_neg h1] at h
            subst h
            exact absurd hs (by simpa using h1)
        · exact ih h

theorem collapseWS_getLast {l : List Char} {c : Char}
    (h : l.getLast? = some c) (hc : isPySpace c = false) :
    (collapseWS l).getLast? = some c := by
  induction l with
  | nil => simp at h
  | cons c1 rest ih =>
    cases rest with
    | nil =>
      simp only [List.getLast?_singleton, Option.some.injEq] at h
      subst h
      unfold collapseWS
      rw [if_neg (by simp [hc])]
      rfl
    | cons c2 rest2 =>
      rw [List.getLast?_cons_cons] at h
      have hR := ih h
      unfold collapseWS
      by_cases hb : (isPySpace c1 && isPySpace c2) = true
      · rw [if_pos hb]; exact hR
      · rw [if_neg hb]
        cases hcoll : collapseWS (c2 :: rest2) with
        | nil => exact absurd hcoll (collapseWS_ne_nil (by simp))
        | cons r0 R2 =>
          rw [hcoll] at hR
          rw [List.getLast?_cons_cons]
          exact hR

theorem collapseWS_eq_self {l : List Char}
    (h1 : noTwoSpaces l = true)
    (h2 : ∀ c, l.getLast? = some c → isPySpace c = false)
    (h3 : ∀ c ∈ l, isPySpace c = true → c = ' ') :
    collapseWS l = l := by
  induction l with
  | nil => rfl
  | cons c1 rest ih =>
    cases rest with
    | nil =>
      have hc1 : isPySpace c1 = false := h2 c1 (by simp)
      unfold collapseWS
      rw [if_neg (by simp [hc1])]
    | cons c2 rest2 =>
      simp only [noTwoSpaces, Bool.and_eq_true, Bool.not_eq_true'] at h1
      unfold collapseWS
      rw [if_neg (by simp [h1.1])]
      have htail : collapseWS (c2 :: rest2) = c2 :: rest2 := by
        refine ih h1.2 ?_ ?_
        · intro c hc
          exact h2 c (by rwa [List.getLast?_cons_cons])
        · intro c hc hs
          exact h3 c (List.mem_cons_of_mem _ hc) hs
      rw [htail]
      by_cases hsp : isPySpace c1 = true
      · rw [if_pos hsp, h3 c1 (by simp) hsp]
      · rw [if_neg hsp]

theorem normalisiere_idem (s : String) :
    normalisiere_keyword (normalisiere_keyword s) = normalisiere_keyword s := by
  unfold normalisiere_keyword
  have hdata : (String.mk (collapseWS (pyStripChars s.data))).data
      = collapseWS (pyStripChars s.data) := rfl
  rw [hdata]
  have hhead : ∀ c, (collapseWS (pyStripChars s.data)).head? = some c →
      isPySpace c = false := by
    intro c hc
    cases hstrip : pyStripChars s.data with
    | nil => rw [hstrip] at hc; simp [collapseWS] at hc
    | cons a t =>
      have ha : isPySpace a = false := pyStripChars_head hstrip
      have hh := collapseWS_head (l := a :: t) (c := a) rfl ha
      rw [hstrip, hh] at hc
      cases hc
      exact ha
  have hlast : ∀ c, (collapseWS (pyStripChars s.data)).getLast? = some c →
      isPySpace c = false := by
    intro c hc
    cases hstrip : pyStripChars s.data with
    | nil => rw [hstrip] at hc; simp [collapseWS] at hc
    | cons a t =>
      obtain ⟨d, hd⟩ : ∃ d, (a :: t).getLast? = some d := by
        cases ht : (a :: t).getLast? with
        | none => exact absurd ht (by simp)
        | some d => exact ⟨d, rfl⟩
      have hdns : isPySpace d = false := pyStripChars_getLast (by rw [hstrip]; exact hd)
      have hg := collapseWS_getLast hd hdns
      rw [hstrip, hg] at hc
      cases hc
      exact hdns
  rw [pyStripChars_eq_self hhead hlast]
  rw [collapseWS_eq_self (collapseWS_noTwoSpaces _) hlast
    (fun c hc hs => collapseWS_blank hc hs)]

/-! ## Deduplication and the cleaning pipeline -/

theorem mem_of_mem_dedupeAux {seen l : List String} {x : String}
    (h : x ∈ dedupeAux seen l) : x ∈ l := by
  induction l generalizing seen with
  | nil => simp [dedupeAux] at h
  | cons a l ih =>
    simp only [dedupeAux] at h
    split at h
    · exact List.mem_cons_of_mem _ (ih h)
    · rcases List.mem_cons.mp h with rfl | h
      · exact List.mem_cons_self _ _
      · exact List.mem_cons_of_mem _ (ih h)

theorem dedupeAux_nodup (seen l : List String) :
    (dedupeAux seen l).Nodup ∧ ∀ x ∈ dedupeAux seen l, x ∉ seen := by
  induction l generalizing seen with
  | nil => simp [dedupeAux]
  | cons a l ih =>
    simp only [dedupeAux]
    split
    · exact ih seen
    · next hnotin =>
      obtain ⟨hnd, hni⟩ := ih (a :: seen)
      refine ⟨List.nodup_cons.mpr ⟨?_, hnd⟩, ?_⟩
      · intro hmem
        exact hni a hmem (List.mem_cons_self a seen)
      · intro x hx hxseen
        rcases List.mem_cons.mp hx with rfl | hx
        · exact hnotin hxseen
        · exact hni x hx (List.mem_cons_of_mem _ hxseen)

theorem dedupe_preserve_order_nodup (l : List String) :
    (dedupe_preserve_order l).Nodup := (dedupeAux_nodup [] l).1

theorem dedupeAux_length_le (seen l : List String) :
    (dedupeAux seen l).length ≤ l.length := by
  induction l generalizing seen with
  | nil => simp [dedupeAux]
  | cons a l ih =>
    simp only [dedupeAux]
    split
    · exact Nat.le_succ_of_le (ih seen)
    · simpa using ih (a :: seen)

/-- Every member of a cleaned list (map-normalise, drop empty and unsafe,
dedupe) is a non-empty, brand-safe fixed point of normalisation. -/
theorem mem_clean_pipeline {l : List String} {x : String}
    (hx : x ∈ dedupe_preserve_order ((l.map normalisiere_keyword).filter
      (fun k => !(k == "") && brand_safety_ok k))) :
    normalisiere_keyword x = x ∧ x ≠ "" ∧ brand_safety_ok x = true := by
  have hx' := mem_of_mem_dedupeAux hx
  rw [List.mem_filter] at hx'
  obtain ⟨hmem, hpred⟩ := hx'
  simp only [Bool.and_eq_true, Bool.not_eq_true', beq_eq_false_iff_ne, ne_eq] at hpred
  obtain ⟨y, _, rfl⟩ := List.mem_map.mp hmem
  exact ⟨normalisiere_idem y, hpred.1, hpred.2⟩

theorem mem_cleanKeywords {keywords : List String} {x : String}
    (hx : x ∈ cleanKeywords keywords) :
    normalisiere_keyword x = x ∧ x ≠ "" ∧ brand_safety_ok x = true :=
  mem_clean_pipeline hx

theorem cleanKeywords_nodup (keywords : List String) :
    (cleanKeywords keywords).Nodup := dedupe_preserve_order_nodup _

theorem mem_nachbearbeiteVerwandte {v : List PyVal} {x : String}
    (hx : x ∈ nachbearbeiteVerwandte v) :
    normalisiere_keyword x = x ∧ x ≠ "" ∧ brand_safety_ok x = true :=
  mem_clean_pipeline hx

theorem nachbearbeiteVerwandte_length_le (v : List PyVal) :
    (nachbearbeiteVerwandte v).length ≤ v.length := by
  unfold nachbearbeiteVerwandte dedupe_preserve_order
  calc (dedupeAux [] _).length
      ≤ (((v.filterMap PyVal.str?).map normalisiere_keyword).filter
          (fun x => !(x == "") && brand_safety_ok x)).length := dedupeAux_length_le _ _
    _ ≤ ((v.filterMap PyVal.str?).map normalisiere_keyword).length :=
        List.length_filter_le _ _
    _ = (v.filterMap PyVal.str?).length := List.length_map _ _
    _ ≤ v.length := List.length_filterMap_le _ _

/-! ## Batching -/

theorem chunksFuel_congr (f1 : Nat) :
    ∀ (f2 : Nat) (l : List String), l.length ≤ f1 → l.length ≤ f2 →
      chunksFuel f1 l = chunksFuel f2 l := by
  induction f1 with
  | zero =>
    intro f2 l h1 _
    have : l = [] := List.eq_nil_of_length_eq_zero (Nat.le_zero.mp h1)
    subst this
    cases f2 <;> rfl
  | succ g1 ih =>
    intro f2 l h1 h2
    cases l with
    | nil => cases f2 <;> rfl
    | cons x xs =>
      cases f2 with
      | zero => simp at h2
      | succ g2 =>
        simp only [chunksFuel]
        have hlen : ((x :: xs).drop 5).length ≤ g1 := by
          simp only [List.length_drop, List.length_cons]
          simp only [List.length_cons] at h1
          omega
        have hlen2 : ((x :: xs).drop 5).length ≤ g2 := by
          simp only [List.length_drop, List.length_cons]
          simp only [List.length_cons] at h2
          omega
        rw [ih g2 _ hlen hlen2]

theorem chunks_cons {l : List String} (h : l ≠ []) :
    chunks l = l.take 5 :: chunks (l.drop 5) := by
  cases l with
  | nil => exact absurd rfl h
  | cons x xs =>
    show chunksFuel (x :: xs).length (x :: xs) = _
    simp only [List.length_cons, chunksFuel]
    congr 1
    apply chunksFuel_congr
    · simp only [List.length_drop, List.length_cons]
      omega
    · exact le_of_eq rfl

theorem chunksFuel_flatten :
    ∀ (fuel : Nat) (l : List String), l.length ≤ fuel →
      (chunksFuel fuel l).flatten = l := by
  intro fuel
  induction fuel with
  | zero =>
    intro l h
    have : l = [] := List.eq_nil_of_length_eq_zero (Nat.le_zero.mp h)
    subst this
    rfl
  | succ g ih =>
    intro l h
    cases l with
    | nil => rfl
    | cons x xs =>
      simp only [chunksFuel, List.flatten_cons]
      rw [ih _ ?_]
      · exact List.take_append_drop 5 (x :: xs)
      · simp only [List.length_drop, List.length_cons]
        simp only [List.length_cons] at h
        omega

theorem chunks_flatten (l : List String) : (chunks l).flatten = l :=
  chunksFuel_flatten _ _ le_rfl

theorem mem_getD_mem_flatten {α : Type*} {cs : List (List α)} {j : Nat} {x : α}
    (h : x ∈ cs.getD j []) : x ∈ cs.flatten := by
  induction cs generalizing j with
  | nil => simp at h
  | cons b bs ih =>
    cases j with
    | zero =>
      simp only [List.getD_cons_zero] at h
      exact List.mem_flatten.mpr ⟨b, List.mem_cons_self _ _, h⟩
    | succ j =>
      simp only [List.getD_cons_succ] at h
      rw [List.flatten_cons]
      exact List.mem_append_right _ (ih h)

/-! ## Properties of the batch loop -/

theorem mkRecord_keyword (iot : List (String × List Cell))
    (related : List (String × RelatedQ)) (maxV : Int) (kw : String) :
    (mkRecord iot related maxV kw).keyword = kw := rfl

theorem map_keyword_mkRecord (iot : List (String × List Cell))
    (related : List (String × RelatedQ)) (maxV : Int) (b : List String) :
    (b.map (mkRecord iot related maxV)).map (fun r => r.keyword) = b := by
  rw [List.map_map]
  have h : ((fun r => Record.keyword r) ∘ mkRecord iot related maxV) = id := rfl
  rw [h, List.map_id]

theorem runChunks_ok_keywords {env : Env} {maxV : Int} {i : Nat}
    {bs : List (List String)} {recs : List Record}
    (h : runChunks env maxV i bs = .ok recs) :
    recs.map (fun r => r.keyword) = bs.flatten := by
  induction bs generalizing i recs with
  | nil =>
    simp only [runChunks] at h
    cases h
    rfl
  | cons b bs ih =>
    simp only [runChunks] at h
    cases hb : env.batch i with
    | throws msg => rw [hb] at h; cases h
    | ok iot rel =>
      rw [hb] at h
      cases hrec : runChunks env maxV (i + 1) bs with
      | error msg => rw [hrec] at h; cases h
      | ok rest =>
        rw [hrec] at h
        cases h
        rw [List.map_append, map_keyword_mkRecord, ih hrec, List.flatten_cons]

theorem runChunks_ok_shape {env : Env} {maxV : Int} {i : Nat}
    {bs : List (List String)} {recs : List Record}
    (h : runChunks env maxV i bs = .ok recs) :
    ∀ rec ∈ recs, ∃ j iot rel, env.batch (i + j) = .ok iot rel ∧
      rec = mkRecord iot rel maxV rec.keyword := by
  induction bs generalizing i recs with
  | nil =>
    simp only [runChunks] at h
    cases h
    intro rec hrec
    simp at hrec
  | cons b bs ih =>
    simp only [runChunks] at h
    cases hb : env.batch i with
    | throws msg => rw [hb] at h; cases h
    | ok iot rel =>
      rw [hb] at h
      cases hrec : runChunks env maxV (i + 1) bs with
      | error msg => rw [hrec] at h; cases h
      | ok rest =>
        rw [hrec] at h
        cases h
        intro rec hmem
        rcases List.mem_append.mp hmem with hm | hm
        · obtain ⟨k, _, rfl⟩ := List.mem_map.mp hm
          exact ⟨0, iot, rel, by rwa [Nat.add_zero], rfl⟩
        · obtain ⟨j, iot', rel', hbatch, heq⟩ := ih hrec rec hm
          refine ⟨j + 1, iot', rel', ?_, heq⟩
          have harith : i + (j + 1) = (i + 1) + j := by omega
          rwa [harith]

theorem runChunks_ok_unique {env : Env} {maxV : Int} {kw : String}
    {iot : List (String × List Cell)} {rel : List (String × RelatedQ)}
    {i j : Nat} {bs : List (List String)} {recs : List Record}
    (hrun : runChunks env maxV i bs = .ok recs)
    (hnd : bs.flatten.Nodup)
    (hkw : kw ∈ bs.getD j [])
    (hbatch : env.batch (i + j) = .ok iot rel) :
    ∀ rec ∈ recs, rec.keyword = kw → rec = mkRecord iot rel maxV kw := by
  induction bs generalizing i j recs with
  | nil =>
    simp at hkw
  | cons b bs ih =>
    simp only [runChunks] at hrun
    cases hb : env.batch i with
    | throws msg => rw [hb] at hrun; cases hrun
    | ok iot0 rel0 =>
      rw [hb] at hrun
      cases hrec : runChunks env maxV (i + 1) bs with
      | error msg => rw [hrec] at hrun; cases hrun
      | ok rest =>
        rw [hrec] at hrun
        cases hrun
        rw [List.flatten_cons, List.nodup_append] at hnd
        obtain ⟨hnb, hnbs, hdisj⟩ := hnd
        intro rec hmem hname
        cases j with
        | zero =>
          simp only [List.getD_cons_zero] at hkw
          rw [Nat.add_zero, hb] at hbatch
          cases hbatch
          rcases List.mem_append.mp hmem with hm | hm
          · obtain ⟨k, _, rfl⟩ := List.mem_map.mp hm
            rw [mkRecord_keyword] at hname
            rw [hname]
          · exfalso
            have : rec.keyword ∈ rest.map (fun r => r.keyword) :=
              List.mem_map.mpr ⟨rec, hm, rfl⟩
            rw [runChunks_ok_keywords hrec] at this
            rw [hname] at this
            exact hdisj hkw this
        | succ j =>
          simp only [List.getD_cons_succ] at hkw
          have hkwflat : kw ∈ bs.flatten := mem_getD_mem_flatten hkw
          rcases List.mem_append.mp hmem with hm | hm
          · exfalso
            obtain ⟨k, hk, rfl⟩ := List.mem_map.mp hm
            rw [mkRecord_keyword] at hname
            rw [hname] at hk
            exact hdisj hk hkwflat
          · have harith : i + (j + 1) = (i + 1) + j := by omega
            rw [harith] at hbatch
            exact ih hrec hnbs hkw hbatch rec hm hname

theorem mkRecord_congr {iot iot' : List (String × List Cell)}
    {rel rel' : List (String × RelatedQ)} {maxV : Int} {kw : String}
    (hcol : iot.lookup kw = iot'.lookup kw)
    (hrel : rel.lookup kw = rel'.lookup kw) :
    mkRecord iot rel maxV kw = mkRecord iot' rel' maxV kw := by
  unfold mkRecord computeTrendIndex
  rw [hcol, hrel]

theorem forall2_map_of_pointwise {α β : Type*} {Rel : β → β → Prop}
    {f g : α → β} {l : List α} (h : ∀ k ∈ l, Rel (f k) (g k)) :
    List.Forall₂ Rel (l.map f) (l.map g) := by
  induction l with
  | nil => exact List.Forall₂.nil
  | cons a l ih =>
    exact List.Forall₂.cons (h a (List.mem_cons_self _ _))
      (ih (fun k hk => h k (List.mem_cons_of_mem _ hk)))

theorem forall2_append {α : Type*} {Rel : α → α → Prop} {a b c d : List α}
    (h1 : List.Forall₂ Rel a b) (h2 : List.Forall₂ Rel c d) :
    List.Forall₂ Rel (a ++ c) (b ++ d) := by
  induction h1 with
  | nil => exact h2
  | cons hr _ ih => exact List.Forall₂.cons hr ih

theorem runChunks_frame {env env' : Env} {maxV : Int} {kw : String}
    {i : Nat} {bs : List (List String)} {recs recs' : List Record}
    (hrun : runChunks env maxV i bs = .ok recs)
    (hrun' : runChunks env' maxV i bs = .ok recs')
    (hag : ∀ j, j < bs.length → ∀ k ∈ bs.getD j [], k ≠ kw →
      (env.batch (i + j)).colOf k = (env'.batch (i + j)).colOf k ∧
      (env.batch (i + j)).relOf k = (env'.batch (i + j)).relOf k) :
    List.Forall₂ (fun a b => a.keyword = b.keyword ∧ (a.keyword ≠ kw → a = b))
      recs recs' := by
  induction bs generalizing i recs recs' with
  | nil =>
    simp only [runChunks] at hrun hrun'
    cases hrun
    cases hrun'
    exact List.Forall₂.nil
  | cons b bs ih =>
    simp only [runChunks] at hrun hrun'
    cases hb : env.batch i with
    | throws msg => rw [hb] at hrun; cases hrun
    | ok iot rel =>
      cases hb' : env'.batch i with
      | throws msg => rw [hb'] at hrun'; cases hrun'
      | ok iot' rel' =>
        rw [hb] at hrun
        rw [hb'] at hrun'
        cases hrec : runChunks env maxV (i + 1) bs with
        | error msg => rw [hrec] at hrun; cases hrun
        | ok rest =>
          cases hrec' : runChunks env' maxV (i + 1) bs with
          | error msg => rw [hrec'] at hrun'; cases hrun'
          | ok rest' =>
            rw [hrec] at hrun
            rw [hrec'] at hrun'
            cases hrun
            cases hrun'
            refine forall2_append ?_ ?_
            · refine forall2_map_of_pointwise ?_
              intro k hk
              refine ⟨rfl, ?_⟩
              intro hne
              rw [mkRecord_keyword] at hne
              have hag0 := hag 0 (by simp) k (by simpa using hk) hne
              rw [Nat.add_zero, hb, hb'] at hag0
              simp only [BatchResponse.colOf, BatchResponse.relOf] at hag0
              exact mkRecord_congr hag0.1 hag0.2
            · refine ih hrec hrec' ?_
              intro j hj k hk hne
              have harith : (i + 1) + j = i + (j + 1) := by omega
              rw [harith]
              exact hag (j + 1) (by simpa using hj) k (by simpa using hk) hne

theorem providerOk_runChunks {env : Env} {maxV : Int} {i : Nat}
    (bs : List (List String))
    (h : ∀ j, j < bs.length → (env.batch (i + j)).isOk = true) :
    ∃ recs, runChunks env maxV i bs = .ok recs := by
  induction bs generalizing i with
  | nil => exact ⟨[], rfl⟩
  | cons b bs ih =>
    have h0 := h 0 (by simp)
    rw [Nat.add_zero] at h0
    cases hb : env.batch i with
    | throws msg => rw [hb] at h0; simp [BatchResponse.isOk] at h0
    | ok iot rel =>
      obtain ⟨rest, hrest⟩ := ih (i := i + 1) (fun j hj => by
        have harith : (i + 1) + j = i + (j + 1) := by omega
        rw [harith]
        exact h (j + 1) (by simpa using hj))
      exact ⟨b.map (mkRecord iot rel maxV) ++ rest, by
        simp only [runChunks]
        rw [hb, hrest]⟩

/-! ## The three return paths of the tool -/

theorem get_trend_cases (env : Env) (kws : List String) (l z s : String) (maxV : Int) :
    (cleanKeywords kws = [] ∧
      get_trend_daten_fuer_keywords env kws l z s maxV = ⟨false, [], hinweisKeineKeywords⟩) ∨
    (∃ recs, cleanKeywords kws ≠ [] ∧
      runProvider env (cleanKeywords kws) maxV = .ok recs ∧
      get_trend_daten_fuer_keywords env kws l z s maxV = ⟨true, recs, hinweisErfolg⟩) ∨
    (∃ msg, cleanKeywords kws ≠ [] ∧
      runProvider env (cleanKeywords kws) maxV = .error msg ∧
      get_trend_daten_fuer_keywords env kws l z s maxV =
        ⟨false, (cleanKeywords kws).map fallbackRecord, hinweisFallbackVorsatz ++ msg⟩) := by
  simp only [get_trend_daten_fuer_keywords]
  by_cases h : cleanKeywords kws = []
  · left
    exact ⟨h, by rw [if_pos h]⟩
  · rw [if_neg h]
    cases hrp : runProvider env (cleanKeywords kws) maxV with
    | ok recs =>
      right; left
      exact ⟨recs, h, rfl, rfl⟩
    | error msg =>
      right; right
      exact ⟨msg, h, rfl, rfl⟩

theorem runProvider_ok_runChunks {env : Env} {cleaned : List String} {maxV : Int}
    {recs : List Record} (h : runProvider env cleaned maxV = .ok recs) :
    runChunks env maxV 0 (chunks cleaned) = .ok recs := by
  unfold runProvider at h
  cases hinit : env.initFail with
  | some m => rw [hinit] at h; cases h
  | none => rwa [hinit] at h

theorem get_trend_keywords (env : Env) (kws : List String) (l z s : String) (maxV : Int) :
    ((get_trend_daten_fuer_keywords env kws l z s maxV).ergebnisse.map
      (fun r => r.keyword)) = cleanKeywords kws := by
  rcases get_trend_cases env kws l z s maxV with ⟨h, heq⟩ | ⟨recs, _, hrp, heq⟩ |
    ⟨msg, _, _, heq⟩
  · rw [heq, h]
    rfl
  · rw [heq]
    show recs.map (fun r => r.keyword) = _
    rw [runChunks_ok_keywords (runProvider_ok_runChunks hrp), chunks_flatten]
  · rw [heq]
    show ((cleanKeywords kws).map fallbackRecord).map (fun r => r.keyword) = _
    rw [List.map_map]
    have hcomp : ((fun r => Record.keyword r) ∘ fallbackRecord) = id := rfl
    rw [hcomp, List.map_id]

theorem mem_ergebnisse_cases {env : Env} {kws : List String} {l z s : String}
    {maxV : Int} {rec : Record}
    (h : rec ∈ (get_trend_daten_fuer_keywords env kws l z s maxV).ergebnisse) :
    (∃ j iot rel, env.batch j = .ok iot rel ∧
      rec = mkRecord iot rel maxV rec.keyword) ∨
    rec = fallbackRecord rec.keyword := by
  rcases get_trend_cases env kws l z s maxV with ⟨_, heq⟩ | ⟨recs, _, hrp, heq⟩ |
    ⟨msg, _, _, heq⟩
  · rw [heq] at h
    simp at h
  · rw [heq] at h
    left
    obtain ⟨j, iot, rel, hb, heq'⟩ :=
      runChunks_ok_shape (runProvider_ok_runChunks hrp) rec h
    rw [Nat.zero_add] at hb
    exact ⟨j, iot, rel, hb, heq'⟩
  · rw [heq] at h
    right
    obtain ⟨k, _, rfl⟩ := List.mem_map.mp h
    rfl

/-! ## Related-queries extraction -/

theorem computeVerwandte_cases (rq : RelatedQ) (maxV : Int) :
    computeVerwandte rq maxV = [] ∨
    ∃ v, computeVerwandte rq maxV = nachbearbeiteVerwandte v := by
  unfold computeVerwandte tryVerwandte
  cases hr : risingStep rq.rising maxV with
  | none => left; simp only [hr, Option.getD_none]
  | some v1 =>
    simp only [hr]
    cases ht : topStep rq.top maxV v1 with
    | none => left; simp only [ht, Option.getD_none]
    | some v2 => right; exact ⟨v2, by simp only [ht, Option.getD_some]⟩

theorem headRows_length_le {maxV : Int} (hm : 0 ≤ maxV) (rows : List PyVal) :
    ((headRows maxV rows).length : Int) ≤ maxV := by
  unfold headRows
  rw [if_pos hm]
  have h1 : (rows.take maxV.toNat).length ≤ maxV.toNat := by
    rw [List.length_take]
    exact Nat.min_le_left _ _
  calc ((rows.take maxV.toNat).length : Int) ≤ (maxV.toNat : Int) := by exact_mod_cast h1
    _ = maxV := Int.toNat_of_nonneg hm

theorem risingStep_length {rq : RelTable} {maxV : Int} {v1 : List PyVal}
    (h : risingStep rq maxV = some v1) (hm : 0 ≤ maxV) :
    (v1.length : Int) ≤ maxV := by
  cases rq with
  | absent =>
    simp only [risingStep, Option.some.injEq] at h
    subst h
    simpa using hm
  | table rows =>
    simp only [risingStep] at h
    split at h
    · cases h
      simpa using hm
    · cases h
      exact headRows_length_le hm rows
  | malformed => cases h

theorem topStep_length {rq : RelTable} {maxV : Int} {v1 v2 : List PyVal}
    (h : topStep rq maxV v1 = some v2) (hm : 0 ≤ maxV)
    (hv1 : (v1.length : Int) ≤ maxV) :
    (v2.length : Int) ≤ maxV := by
  cases rq with
  | absent =>
    simp only [topStep, Option.some.injEq] at h
    subst h
    exact hv1
  | table rows =>
    simp only [topStep] at h
    split at h
    · next hcond =>
      cases h
      have h2 := @headRows_length_le (maxV - (v1.length : Int)) (by omega) rows
      rw [List.length_append]
      push_cast
      omega
    · cases h
      exact hv1
  | malformed =>
    simp only [topStep] at h
    split at h
    · cases h
    · cases h
      exact hv1

theorem computeVerwandte_length {rq : RelatedQ} {maxV : Int} (hm : 0 ≤ maxV) :
    ((computeVerwandte rq maxV).length : Int) ≤ maxV := by
  unfold computeVerwandte tryVerwandte
  cases hr : risingStep rq.rising maxV with
  | none =>
    simp only [hr, Option.getD_none]
    simpa using hm
  | some v1 =>
    simp only [hr]
    cases ht : topStep rq.top maxV v1 with
    | none =>
      simp only [ht, Option.getD_none]
      simpa using hm
    | some v2 =>
      simp only [ht, Option.getD_some]
      calc ((nachbearbeiteVerwandte v2).length : Int) ≤ (v2.length : Int) := by
            exact_mod_cast nachbearbeiteVerwandte_length_le v2
        _ ≤ maxV := topStep_length ht hm (risingStep_length hr hm)

theorem tryVerwandte_none_verwandte {rq : RelatedQ} {maxV : Int}
    (h : relatedExtractionRaises rq maxV = true) :
    computeVerwandte rq maxV = [] := by
  unfold relatedExtractionRaises at h
  unfold computeVerwandte
  rw [Option.isNone_iff_eq_none.mp h]
  rfl

/-! ## Trend-index extraction -/

theorem filterMap_val?_filter_nonnan (col : List Cell) :
    (col.filter (fun c => !(c.isNan))).filterMap Cell.val?
      = col.filterMap Cell.val? := by
  induction col with
  | nil => rfl
  | cons c rest ih =>
    cases c with
    | num q =>
      rw [List.filter_cons_of_pos (by rfl),
        List.filterMap_cons_some (show Cell.val? (Cell.num q) = some q from rfl),
        List.filterMap_cons_some (show Cell.val? (Cell.num q) = some q from rfl), ih]
    | nan =>
      rw [List.filter_cons_of_neg (by decide),
        List.filterMap_cons_none (show Cell.val? Cell.nan = none from rfl), ih]
    | bad =>
      rw [List.filter_cons_of_pos (by rfl),
        List.filterMap_cons_none (show Cell.val? Cell.bad = none from rfl),
        List.filterMap_cons_none (show Cell.val? Cell.bad = none from rfl), ih]

theorem computeTrendIndex_absent {iot : List (String × List Cell)} {kw : String}
    (h : iot.lookup kw = none) : computeTrendIndex iot kw = none := by
  unfold computeTrendIndex
  rw [h]

theorem computeTrendIndex_some {iot : List (String × List Cell)} {kw : String}
    {col : List Cell} (hcol : iot.lookup kw = some col)
    (hnb : ∀ c ∈ col, c.isBad = false) :
    computeTrendIndex iot kw =
      if col.filterMap Cell.val? = [] then none
      else some (pyRound (ratMean (col.filterMap Cell.val?))) := by
  unfold computeTrendIndex
  simp only [hcol]
  by_cases hser : (col.filter fun c => !(c.isNan)) = []
  · have hvals : col.filterMap Cell.val? = [] := by
      rw [← filterMap_val?_filter_nonnan, hser]
      rfl
    rw [if_pos hser, if_pos hvals]
  · have hany : (col.filter fun c => !(c.isNan)).any Cell.isBad = false := by
      rw [List.any_eq_false]
      intro c hc
      rw [hnb c (List.mem_of_mem_filter hc)]
      simp
    have hvalsne : col.filterMap Cell.val? ≠ [] := by
      obtain ⟨c, hc⟩ := List.exists_mem_of_ne_nil _ hser
      have hcc : c ∈ col := List.mem_of_mem_filter hc
      have hcn : c.isNan = false := by
        have := List.of_mem_filter hc
        simpa using this
      have hcb : c.isBad = false := hnb c hcc
      cases c with
      | num q =>
        intro hnil
        have hq : q ∈ col.filterMap Cell.val? :=
          List.mem_filterMap.mpr ⟨Cell.num q, hcc, rfl⟩
        rw [hnil] at hq
        simp at hq
      | nan => simp [Cell.isNan] at hcn
      | bad => simp [Cell.isBad] at hcb
    rw [if_neg hser, if_neg hvalsne, hany]
    simp only [Bool.false_eq_true, if_false]
    rw [filterMap_val?_filter_nonnan]

theorem trendExtractionRaises_none {iot : List (String × List Cell)} {kw : String}
    (h : trendExtractionRaises iot kw = true) :
    computeTrendIndex iot kw = none := by
  unfold trendExtractionRaises at h
  unfold computeTrendIndex
  cases hcol : iot.lookup kw with
  | none => rfl
  | some col =>
    simp only [hcol] at h ⊢
    by_cases hser : (col.filter fun c => !(c.isNan)) = []
    · rw [if_pos hser]
    · rw [if_neg hser, h]
      simp

/-! ## Numeric bounds -/

theorem list_sum_nonneg_le {l : List ℚ} (h : ∀ q ∈ l, 0 ≤ q ∧ q ≤ 100) :
    0 ≤ l.sum ∧ l.sum ≤ 100 * l.length := by
  induction l with
  | nil => simp
  | cons q rest ih =>
    have hq := h q (List.mem_cons_self _ _)
    obtain ⟨ih1, ih2⟩ := ih (fun x hx => h x (List.mem_cons_of_mem _ hx))
    simp only [List.sum_cons, List.length_cons]
    constructor
    · exact add_nonneg hq.1 ih1
    · push_cast
      linarith [hq.2]

theorem ratMean_bounds {l : List ℚ} (hne : l ≠ []) (h : ∀ q ∈ l, 0 ≤ q ∧ q ≤ 100) :
    0 ≤ ratMean l ∧ ratMean l ≤ 100 := by
  have hlen : (0 : ℚ) < (l.length : ℚ) := by
    have hp : 0 < l.length := List.length_pos.mpr hne
    exact_mod_cast hp
  obtain ⟨h1, h2⟩ := list_sum_nonneg_le h
  unfold ratMean
  constructor
  · exact div_nonneg h1 (le_of_lt hlen)
  · rw [div_le_iff₀ hlen]
    calc l.sum ≤ 100 * l.length := h2
      _ = 100 * l.length := by ring

theorem ratFloor_eq_intFloor (q : ℚ) : q.floor = ⌊q⌋ := by
  rw [Rat.floor_def', Rat.floor_def]

theorem pyRound_nonneg {q : ℚ} (h : 0 ≤ q) : 0 ≤ pyRound q := by
  unfold pyRound
  rw [ratFloor_eq_intFloor]
  have h0 : 0 ≤ ⌊q⌋ := Int.floor_nonneg.mpr h
  split_ifs <;> omega

theorem pyRound_le_100 {q : ℚ} (h : q ≤ 100) : pyRound q ≤ 100 := by
  unfold pyRound
  rw [ratFloor_eq_intFloor]
  have h100 : ⌊(100 : ℚ)⌋ = 100 := by
    rw [show ((100 : ℚ)) = ((100 : Int) : ℚ) by norm_num, Int.floor_intCast]
  have hfle : ⌊q⌋ ≤ 100 := by
    calc ⌊q⌋ ≤ ⌊(100 : ℚ)⌋ := Int.floor_le_floor h
      _ = 100 := h100
  by_cases hcase : ⌊q⌋ ≤ 99
  · split_ifs <;> omega
  · have hq100 : ⌊q⌋ = 100 := by omega
    have hge : (100 : ℚ) ≤ q := by
      have hfl := Int.floor_le q
      rw [hq100] at hfl
      exact_mod_cast hfl
    have hqe : q = 100 := le_antisymm h hge
    subst hqe
    rw [hq100]
    norm_num

theorem computeTrendIndex_range {iot : List (String × List Cell)} {kw : String}
    (hvals : ∀ col, iot.lookup kw = some col → ∀ q : ℚ, Cell.num q ∈ col →
      0 ≤ q ∧ q ≤ 100) :
    computeTrendIndex iot kw = none ∨
      ∃ t, computeTrendIndex iot kw = some t ∧ 0 ≤ t ∧ t ≤ 100 := by
  cases hcol : iot.lookup kw with
  | none => left; exact computeTrendIndex_absent hcol
  | some col =>
    by_cases hbadex : (col.filter fun c => !(c.isNan)).any Cell.isBad = true
    · left
      apply trendExtractionRaises_none
      show (match iot.lookup kw with
        | none => false
        | some col => (col.filter (fun c => !(c.isNan))).any Cell.isBad) = true
      simp only [hcol]
      exact hbadex
    · have hnb : ∀ c ∈ col, c.isBad = false := by
        intro c hc
        by_contra hcb
        rw [Bool.not_eq_false] at hcb
        have hcser : c ∈ col.filter (fun c => !(c.isNan)) := by
          apply List.mem_filter.mpr
          refine ⟨hc, ?_⟩
          cases c with
          | num q => simp [Cell.isBad] at hcb
          | nan => simp [Cell.isBad] at hcb
          | bad => rfl
        exact hbadex (List.any_eq_true.mpr ⟨c, hcser, hcb⟩)
      rw [computeTrendIndex_some hcol hnb]
      by_cases hvalsnil : col.filterMap Cell.val? = []
      · left
        rw [if_pos hvalsnil]
      · right
        rw [if_neg hvalsnil]
        have hmem : ∀ q ∈ col.filterMap Cell.val?, 0 ≤ q ∧ q ≤ 100 := by
          intro q hq
          obtain ⟨c, hc, hval⟩ := List.mem_filterMap.mp hq
          cases c with
          | num q2 =>
            simp only [Cell.val?, Option.some.injEq] at hval
            subst hval
            exact hvals col hcol q2 hc
          | nan => cases hval
          | bad => cases hval
        obtain ⟨hm1, hm2⟩ := ratMean_bounds hvalsnil hmem
        exact ⟨_, rfl, pyRound_nonneg hm1, pyRound_le_100 hm2⟩

theorem providerOk_success (env : Env) (kws : List String) (l z s : String)
    (maxV : Int) (hok : providerOk env (chunks (cleanKeywords kws)).length)
    (hne : cleanKeywords kws ≠ []) :
    ∃ recs, runProvider env (cleanKeywords kws) maxV = .ok recs ∧
      get_trend_daten_fuer_keywords env kws l z s maxV = ⟨true, recs, hinweisErfolg⟩ := by
  obtain ⟨hinit, hbatches⟩ := hok
  obtain ⟨recs, hrun⟩ := @providerOk_runChunks env maxV 0
    (chunks (cleanKeywords kws))
    (fun j hj => by rw [Nat.zero_add]; exact hbatches j hj)
  have hrp : runProvider env (cleanKeywords kws) maxV = .ok recs := by
    unfold runProvider
    rw [hinit]
    exact hrun
  refine ⟨recs, hrp, ?_⟩
  rcases get_trend_cases env kws l z s maxV with ⟨h, _⟩ | ⟨recs', _, hrp', heq⟩ |
    ⟨msg, _, hrp', _⟩
  · exact absurd h hne
  · rw [hrp] at hrp'
    cases hrp'
    exact heq
  · rw [hrp] at hrp'
    cases hrp'

/-! ## The claims -/

/-- C1, counterexample to the claim as stated: with keyword list
`[" ", "beispiel"]` and a provider whose batch call raises `"kaputt"`, the
input keyword `" "` (dropped by normalisation) appears zero times in the
returned `ergebnisse`, not exactly once. -/
theorem C1_counterexample :
    runProvider (⟨none, fun _ => .throws "kaputt"⟩ : Env)
        (cleanKeywords [" ", "beispiel"]) 5 = .error "kaputt" ∧
    (" " : String) ∈ ([" ", "beispiel"] : List String) ∧
    ((get_trend_daten_fuer_keywords ⟨none, fun _ => .throws "kaputt"⟩ [" ", "beispiel"]
        "DE" "today 12-m" "de-DE" 5).ergebnisse.map (fun r => r.keyword))
      = ["beispiel"] := by
  refine ⟨rfl, by decide, by decide⟩

/-- C1, amended: if the batched provider interaction raises with message
`msg`, then every surviving keyword (after normalisation, denylist filtering
and deduplication) appears exactly once in `ergebnisse`, in first-seen order,
each record having null trend index, null volume and an empty related list,
`trends_verfuegbar` is false, and `hinweis` embeds the exception message. -/
theorem C1_fallback_shape (env : Env) (kws : List String) (l z s : String)
    (maxV : Int) (msg : String)
    (hne : cleanKeywords kws ≠ [])
    (hthrow : runProvider env (cleanKeywords kws) maxV = .error msg) :
    (get_trend_daten_fuer_keywords env kws l z s maxV).trends_verfuegbar = false ∧
    (get_trend_daten_fuer_keywords env kws l z s maxV).ergebnisse
      = (cleanKeywords kws).map fallbackRecord ∧
    ((get_trend_daten_fuer_keywords env kws l z s maxV).ergebnisse.map
      (fun r => r.keyword)) = cleanKeywords kws ∧
    (cleanKeywords kws).Nodup ∧
    (get_trend_daten_fuer_keywords env kws l z s maxV).hinweis
      = hinweisFallbackVorsatz ++ msg := by
  rcases get_trend_cases env kws l z s maxV with ⟨h, _⟩ | ⟨recs, _, hrp, _⟩ |
    ⟨msg', _, hrp, heq⟩
  · exact absurd h hne
  · rw [hthrow] at hrp
    cases hrp
  · rw [hthrow] at hrp
    cases hrp
    exact ⟨by rw [heq], by rw [heq], get_trend_keywords env kws l z s maxV,
      cleanKeywords_nodup kws, by rw [heq]⟩

theorem C1_fallback_shape_witness :
    (get_trend_daten_fuer_keywords ⟨none, fun _ => .throws "kaputt"⟩ [" ", "beispiel"]
        "DE" "today 12-m" "de-DE" 5).trends_verfuegbar = false ∧
    (get_trend_daten_fuer_keywords ⟨none, fun _ => .throws "kaputt"⟩ [" ", "beispiel"]
        "DE" "today 12-m" "de-DE" 5).ergebnisse
      = (cleanKeywords [" ", "beispiel"]).map fallbackRecord ∧
    ((get_trend_daten_fuer_keywords ⟨none, fun _ => .throws "kaputt"⟩ [" ", "beispiel"]
        "DE" "today 12-m" "de-DE" 5).ergebnisse.map (fun r => r.keyword))
      = cleanKeywords [" ", "beispiel"] ∧
    (cleanKeywords [" ", "beispiel"]).Nodup ∧
    (get_trend_daten_fuer_keywords ⟨none, fun _ => .throws "kaputt"⟩ [" ", "beispiel"]
        "DE" "today 12-m" "de-DE" 5).hinweis = hinweisFallbackVorsatz ++ "kaputt" :=
  C1_fallback_shape ⟨none, fun _ => .throws "kaputt"⟩ [" ", "beispiel"]
    "DE" "today 12-m" "de-DE" 5 "kaputt" (by decide) rfl

/-- C2: for every keyword list and every provider behaviour (including
raising at any point, which the `Env` oracle makes explicit), the function
returns a total `TrendResult` of the documented shape: `suchvolumen` is null
in every record, and the result is exactly one of the three documented
outcomes (early empty result, success result, or exception fallback). -/
theorem C2_total_documented_shape (env : Env) (kws : List String) (l z s : String)
    (maxV : Int) :
    (∀ rec ∈ (get_trend_daten_fuer_keywords env kws l z s maxV).ergebnisse,
      rec.suchvolumen = none) ∧
    (get_trend_daten_fuer_keywords env kws l z s maxV
        = ⟨false, [], hinweisKeineKeywords⟩ ∨
     ((get_trend_daten_fuer_keywords env kws l z s maxV).trends_verfuegbar = true ∧
      (get_trend_daten_fuer_keywords env kws l z s maxV).hinweis = hinweisErfolg) ∨
     ∃ msg, get_trend_daten_fuer_keywords env kws l z s maxV
        = ⟨false, (cleanKeywords kws).map fallbackRecord,
            hinweisFallbackVorsatz ++ msg⟩) := by
  constructor
  · intro rec hrec
    rcases mem_ergebnisse_cases hrec with ⟨j, iot, rel, _, heq⟩ | heq
    · rw [heq]; rfl
    · rw [heq]; rfl
  · rcases get_trend_cases env kws l z s maxV with ⟨_, heq⟩ | ⟨recs, _, _, heq⟩ |
      ⟨msg, _, _, heq⟩
    · left; exact heq
    · right; left; rw [heq]; exact ⟨rfl, rfl⟩
    · right; right; exact ⟨msg, heq⟩

/-- C3: no keyword field and no related-queries entry in the output is empty
after whitespace normalisation or matches the denylist (`brand_safety_ok` is
true for all of them). -/
theorem C3_no_unsafe_or_empty_output (env : Env) (kws : List String)
    (l z s : String) (maxV : Int) :
    ∀ rec ∈ (get_trend_daten_fuer_keywords env kws l z s maxV).ergebnisse,
      (normalisiere_keyword rec.keyword ≠ "" ∧ brand_safety_ok rec.keyword = true) ∧
      ∀ v ∈ rec.verwandte_suchanfragen,
        normalisiere_keyword v ≠ "" ∧ brand_safety_ok v = true := by
  intro rec hrec
  constructor
  · have hkw : rec.keyword ∈ cleanKeywords kws := by
      have hm : rec.keyword ∈ (get_trend_daten_fuer_keywords env kws l z s
          maxV).ergebnisse.map (fun r => r.keyword) :=
        List.mem_map.mpr ⟨rec, hrec, rfl⟩
      rwa [get_trend_keywords] at hm
    obtain ⟨hfix, hne, hsafe⟩ := mem_cleanKeywords hkw
    exact ⟨by rwa [hfix], hsafe⟩
  · intro v hv
    rcases mem_ergebnisse_cases hrec with ⟨j, iot, rel, _, heq⟩ | heq
    · rw [heq] at hv
      have hv' : v ∈ computeVerwandte
          ((rel.lookup rec.keyword).getD ⟨.absent, .absent⟩) maxV := hv
      rcases computeVerwandte_cases
          ((rel.lookup rec.keyword).getD ⟨.absent, .absent⟩) maxV with hc | ⟨w, hc⟩
      · rw [hc] at hv'
        simp at hv'
      · rw [hc] at hv'
        obtain ⟨hfix, hne, hsafe⟩ := mem_nachbearbeiteVerwandte hv'
        exact ⟨by rwa [hfix], hsafe⟩
    · rw [heq] at hv
      simp [fallbackRecord] at hv

theorem C3_no_unsafe_or_empty_output_witness :
    (normalisiere_keyword
        (⟨"beispiel", none, none, ["eins zwei"]⟩ : Record).keyword ≠ "" ∧
      brand_safety_ok
        (⟨"beispiel", none, none, ["eins zwei"]⟩ : Record).keyword = true) ∧
    ∀ v ∈ (⟨"beispiel", none, none, ["eins zwei"]⟩ : Record).verwandte_suchanfragen,
      normalisiere_keyword v ≠ "" ∧ brand_safety_ok v = true :=
  C3_no_unsafe_or_empty_output
    ⟨none, fun _ => .ok []
      [("beispiel", ⟨RelTable.table [PyVal.str " eins  zwei "], RelTable.absent⟩)]⟩
    ["beispiel"] "DE" "today 12-m" "de-DE" 5
    ⟨"beispiel", none, none, ["eins zwei"]⟩ (by decide)

/-- C4: in the success path and in the exception fallback alike, the keyword
fields of `ergebnisse` are exactly the input after normalisation, dropping
empty/denylisted entries, and first-seen-order deduplication (one record per
surviving keyword, in that order). -/
theorem C4_keyword_sequence (env : Env) (kws : List String) (l z s : String)
    (maxV : Int) :
    ((get_trend_daten_fuer_keywords env kws l z s maxV).ergebnisse.map
      (fun r => r.keyword)) = cleanKeywords kws ∧
    (cleanKeywords kws).Nodup :=
  ⟨get_trend_keywords env kws l z s maxV, cleanKeywords_nodup kws⟩

/-- C5: when the topic is non-blank and both ages convert to integers but the
range is invalid (negative bound or min exceeding max), the request is
answered with the fixed error outputs and the recorded trace of agent-runner
invocations is empty - the rejection happens before any external call. -/
theorem C5_reject_before_runner
    (runner : String → String → Int → Int → List (String × String))
    (thema artikeltext : String) (a b : Int)
    (hthema : pyStrip thema ≠ "")
    (hbad : a < 0 ∨ b < 0 ∨ a > b) :
    process_request_async runner thema artikeltext (.int a) (.int b)
      = ⟨.errorOut fehlerAltersbereich, []⟩ := by
  unfold process_request_async
  rw [if_neg hthema]
  simp only [toIntPy]
  rw [if_pos hbad]

theorem C5_reject_before_runner_witness :
    process_request_async (fun _ _ _ _ => []) "Sport" "" (.int 30) (.int 20)
      = ⟨.errorOut fehlerAltersbereich, []⟩ :=
  C5_reject_before_runner (fun _ _ _ _ => []) "Sport" "" 30 20
    (by decide) (by decide)

/-- C6, counterexample to the claim as stated: with `max_verwandte = -1` the
(fallback) record for `"beispiel"` has an empty related list, whose length 0
is not at most `-1`. -/
theorem C6_counterexample :
    ((get_trend_daten_fuer_keywords ⟨none, fun _ => .throws "kaputt"⟩ ["beispiel"]
        "DE" "today 12-m" "de-DE" (-1)).ergebnisse.map
      (fun r => decide ((r.verwandte_suchanfragen.length : Int) ≤ -1))) = [false] := by
  decide

/-- C6, amended: for every call with non-negative `max_verwandte`, every
record's `verwandte_suchanfragen` list has length at most `max_verwandte`. -/
theorem C6_verwandte_length_bound (env : Env) (kws : List String) (l z s : String)
    (maxV : Int) (hm : 0 ≤ maxV) :
    ((get_trend_daten_fuer_keywords env kws l z s maxV).ergebnisse.all
      (fun r => decide ((r.verwandte_suchanfragen.length : Int) ≤ maxV))) = true := by
  rw [List.all_eq_true]
  intro rec hrec
  rw [decide_eq_true_eq]
  rcases mem_ergebnisse_cases hrec with ⟨j, iot, rel, _, heq⟩ | heq
  · rw [heq]
    exact computeVerwandte_length hm
  · rw [heq]
    simpa using hm

theorem C6_verwandte_length_bound_witness :
    ((get_trend_daten_fuer_keywords
        ⟨none, fun _ => .ok [] [("beispiel",
          ⟨RelTable.table [PyVal.str "eins", PyVal.str "zwei", PyVal.str "drei",
            PyVal.str "vier", PyVal.str "fuenf", PyVal.str "sechs"],
           RelTable.absent⟩)]⟩
        ["beispiel"] "DE" "today 12-m" "de-DE" 5).ergebnisse.all
      (fun r => decide ((r.verwandte_suchanfragen.length : Int) ≤ 5))) = true :=
  C6_verwandte_length_bound
    ⟨none, fun _ => .ok [] [("beispiel",
      ⟨RelTable.table [PyVal.str "eins", PyVal.str "zwei", PyVal.str "drei",
        PyVal.str "vier", PyVal.str "fuenf", PyVal.str "sechs"],
       RelTable.absent⟩)]⟩
    ["beispiel"] "DE" "today 12-m" "de-DE" 5 (by decide)

/-- C7: in the success path, the record of a surviving keyword whose batch
returned columns `iot` (and whose column raises no extraction exception) has
as `trend_index` exactly the mean of the column's non-null values rounded to
integer by Python `round`, and null when the column is absent or empty after
dropping nulls. -/
theorem C7_trend_index_mean (env : Env) (kws : List String) (l z s : String)
    (maxV : Int) (i : Nat) (iot : List (String × List Cell))
    (rel : List (String × RelatedQ)) (kw : String)
    (hsucc : (get_trend_daten_fuer_keywords env kws l z s maxV).trends_verfuegbar = true)
    (hbatch : env.batch i = .ok iot rel)
    (hkw : kw ∈ (chunks (cleanKeywords kws)).getD i [])
    (hnb : ∀ col, iot.lookup kw = some col → ∀ c ∈ col, c.isBad = false) :
    ∀ rec ∈ (get_trend_daten_fuer_keywords env kws l z s maxV).ergebnisse,
      rec.keyword = kw →
      rec.trend_index =
        match iot.lookup kw with
        | none => none
        | some col =>
          if col.filterMap Cell.val? = [] then none
          else some (pyRound (ratMean (col.filterMap Cell.val?))) := by
  intro rec hrec hname
  rcases get_trend_cases env kws l z s maxV with ⟨_, heq⟩ | ⟨recs, _, hrp, heq⟩ |
    ⟨msg, _, _, heq⟩
  · rw [heq] at hsucc
    simp at hsucc
  · rw [heq] at hrec
    have hrun := runProvider_ok_runChunks hrp
    have hnd : (chunks (cleanKeywords kws)).flatten.Nodup := by
      rw [chunks_flatten]
      exact cleanKeywords_nodup kws
    have hb0 : env.batch (0 + i) = .ok iot rel := by rwa [Nat.zero_add]
    have hrc := runChunks_ok_unique hrun hnd hkw hb0 rec hrec hname
    rw [hrc]
    show computeTrendIndex iot kw = _
    cases hcol : iot.lookup kw with
    | none => rw [computeTrendIndex_absent hcol]
    | some col => rw [computeTrendIndex_some hcol (hnb col hcol)]
  · rw [heq] at hsucc
    simp at hsucc

theorem C7_trend_index_mean_witness :
    ∃ rec ∈ (get_trend_daten_fuer_keywords
        ⟨none, fun _ => .ok [("alpha", [Cell.num 10, Cell.nan, Cell.num 21])] []⟩
        ["alpha"] "DE" "today 12-m" "de-DE" 5).ergebnisse,
      rec.keyword = "alpha" ∧ rec.trend_index = some 16 := by
  refine ⟨⟨"alpha", some 16, none, []⟩, by decide, rfl, ?_⟩
  have hnb : ∀ col,
      ([("alpha", [Cell.num 10, Cell.nan, Cell.num 21])] :
        List (String × List Cell)).lookup "alpha" = some col →
      ∀ c ∈ col, c.isBad = false := by
    intro col hcol c hc
    have he : ([("alpha", [Cell.num 10, Cell.nan, Cell.num 21])] :
        List (String × List Cell)).lookup "alpha"
        = some [Cell.num 10, Cell.nan, Cell.num 21] := by decide
    rw [he] at hcol
    cases hcol
    simp only [List.mem_cons, List.not_mem_nil, or_false] at hc
    rcases hc with rfl | rfl | rfl <;> rfl
  have h := C7_trend_index_mean
    ⟨none, fun _ => .ok [("alpha", [Cell.num 10, Cell.nan, Cell.num 21])] []⟩
    ["alpha"] "DE" "today 12-m" "de-DE" 5 0
    [("alpha", [Cell.num 10, Cell.nan, Cell.num 21])] [] "alpha"
    (by decide) rfl (by decide) hnb
    ⟨"alpha", some 16, none, []⟩ (by decide) rfl
  rw [h]
  decide

/-- C8, counterexample to the claim as stated: the code never clamps the
provider's series values, so a series value of 200 yields
`trend_index = 200`, outside 0..100. -/
theorem C8_counterexample :
    ((get_trend_daten_fuer_keywords ⟨none, fun _ => .ok [("beispiel", [Cell.num 200])] []⟩
        ["beispiel"] "DE" "today 12-m" "de-DE" 5).ergebnisse.map
      (fun r => r.trend_index)) = [some 200] ∧ ¬((200 : Int) ≤ 100) :=
  ⟨by decide, by decide⟩

/-- C8, amended: `suchvolumen` is always null, and `trend_index` is null or
an integer which lies in 0..100 whenever every series value the provider
returns lies in 0..100 (as genuine Google-Trends values do). -/
theorem C8_record_ranges (env : Env) (kws : List String) (l z s : String)
    (maxV : Int)
    (hrange : ∀ i iot rel, env.batch i = .ok iot rel →
      ∀ k col, iot.lookup k = some col → ∀ q : ℚ, Cell.num q ∈ col →
        0 ≤ q ∧ q ≤ 100) :
    ∀ rec ∈ (get_trend_daten_fuer_keywords env kws l z s maxV).ergebnisse,
      rec.suchvolumen = none ∧
      (rec.trend_index = none ∨
        ∃ t, rec.trend_index = some t ∧ 0 ≤ t ∧ t ≤ 100) := by
  intro rec hrec
  rcases mem_ergebnisse_cases hrec with ⟨j, iot, rel, hb, heq⟩ | heq
  · refine ⟨by rw [heq]; rfl, ?_⟩
    have htrend : rec.trend_index = computeTrendIndex iot rec.keyword := by
      rw [heq]
      rfl
    rw [htrend]
    exact computeTrendIndex_range
      (fun col hcol q hq => hrange j iot rel hb rec.keyword col hcol q hq)
  · rw [heq]
    exact ⟨rfl, Or.inl rfl⟩

theorem C8_record_ranges_witness :
    (⟨"beispiel", some 50, none, []⟩ : Record).suchvolumen = none ∧
    ((⟨"beispiel", some 50, none, []⟩ : Record).trend_index = none ∨
     ∃ t, (⟨"beispiel", some 50, none, []⟩ : Record).trend_index = some t ∧
       0 ≤ t ∧ t ≤ 100) := by
  refine C8_record_ranges ⟨none, fun _ => .ok [("beispiel", [Cell.num 50])] []⟩
    ["beispiel"] "DE" "today 12-m" "de-DE" 5 ?_
    ⟨"beispiel", some 50, none, []⟩ (by decide)
  intro i iot rel hb k col hcol q hq
  cases hb
  simp only [List.lookup] at hcol
  split at hcol
  · cases hcol
    simp only [List.mem_singleton] at hq
    cases hq
    constructor <;> decide
  · cases hcol

/-- C9: when the cleaned keyword list is empty (in particular for the empty
input list), the tool returns the fixed "unavailable" result with an empty
list; the result does not depend on the provider oracle at all, so no
provider interaction is attempted. -/
theorem C9_empty_clean_early_return (env : Env) (kws : List String)
    (l z s : String) (maxV : Int) (h : cleanKeywords kws = []) :
    get_trend_daten_fuer_keywords env kws l z s maxV
      = ⟨false, [], hinweisKeineKeywords⟩ := by
  simp only [get_trend_daten_fuer_keywords]
  rw [if_pos h]

theorem C9_empty_clean_early_return_witness :
    get_trend_daten_fuer_keywords ⟨none, fun _ => .throws "kaputt"⟩ []
        "DE" "today 12-m" "de-DE" 5 = ⟨false, [], hinweisKeineKeywords⟩ :=
  C9_empty_clean_early_return ⟨none, fun _ => .throws "kaputt"⟩ []
    "DE" "today 12-m" "de-DE" 5 (by decide)

/-- C10: per-keyword extraction failures are contained.  If the provider
calls themselves succeed in both runs and the two oracles agree on the data
of every keyword other than `kw`, then the run against the second oracle
still reports `trends_verfuegbar = true`, still emits exactly one record per
surviving keyword in order (in particular one for `kw`), every record of a
keyword other than `kw` is unchanged, and when `kw`'s own extraction raises
(a `bad` cell for the trend index, a raising related-queries access), its
record degrades to a null trend index resp. an empty related list. -/
theorem C10_per_keyword_containment (env env' : Env) (kws : List String)
    (l z s l' z' s' : String) (maxV : Int) (kw : String)
    (hkw : kw ∈ cleanKeywords kws)
    (hok : providerOk env (chunks (cleanKeywords kws)).length)
    (hok' : providerOk env' (chunks (cleanKeywords kws)).length)
    (hagree : ∀ j, j < (chunks (cleanKeywords kws)).length →
      ∀ k ∈ (chunks (cleanKeywords kws)).getD j [], k ≠ kw →
        (env.batch j).colOf k = (env'.batch j).colOf k ∧
        (env.batch j).relOf k = (env'.batch j).relOf k) :
    (get_trend_daten_fuer_keywords env' kws l' z' s' maxV).trends_verfuegbar = true ∧
    ((get_trend_daten_fuer_keywords env' kws l' z' s' maxV).ergebnisse.map
      (fun r => r.keyword)) = cleanKeywords kws ∧
    List.Forall₂ (fun a b => a.keyword = b.keyword ∧ (a.keyword ≠ kw → a = b))
      (get_trend_daten_fuer_keywords env kws l z s maxV).ergebnisse
      (get_trend_daten_fuer_keywords env' kws l' z' s' maxV).ergebnisse ∧
    (∀ j iot' rel', env'.batch j = .ok iot' rel' →
      kw ∈ (chunks (cleanKeywords kws)).getD j [] →
      ∀ rec ∈ (get_trend_daten_fuer_keywords env' kws l' z' s' maxV).ergebnisse,
        rec.keyword = kw →
        (trendExtractionRaises iot' kw = true → rec.trend_index = none) ∧
        (relatedExtractionRaises ((rel'.lookup kw).getD ⟨.absent, .absent⟩) maxV
            = true → rec.verwandte_suchanfragen = [])) := by
  have hne : cleanKeywords kws ≠ [] := by
    intro h
    rw [h] at hkw
    simp at hkw
  obtain ⟨recs, hrp, heq⟩ := providerOk_success env kws l z s maxV hok hne
  obtain ⟨recs', hrp', heq'⟩ := providerOk_success env' kws l' z' s' maxV hok' hne
  refine ⟨by rw [heq'], get_trend_keywords env' kws l' z' s' maxV, ?_, ?_⟩
  · rw [heq, heq']
    show List.Forall₂ _ recs recs'
    exact runChunks_frame (runProvider_ok_runChunks hrp)
      (runProvider_ok_runChunks hrp')
      (fun j hj k hk hkne => by rw [Nat.zero_add]; exact hagree j hj k hk hkne)
  · intro j iot' rel' hb' hkwj rec hrec hname
    rw [heq'] at hrec
    have hnd : (chunks (cleanKeywords kws)).flatten.Nodup := by
      rw [chunks_flatten]
      exact cleanKeywords_nodup kws
    have hb0 : env'.batch (0 + j) = .ok iot' rel' := by rwa [Nat.zero_add]
    have hrc := runChunks_ok_unique (runProvider_ok_runChunks hrp') hnd hkwj hb0
      rec hrec hname
    constructor
    · intro htr
      rw [hrc]
      show computeTrendIndex iot' kw = none
      exact trendExtractionRaises_none htr
    · intro hrr
      rw [hrc]
      show computeVerwandte _ maxV = []
      exact tryVerwandte_none_verwandte hrr

theorem C10_per_keyword_containment_witness :
    (get_trend_daten_fuer_keywords
        ⟨none, fun _ => .ok [("alpha", [Cell.num 10]), ("beta", [Cell.bad])]
          [("beta", ⟨RelTable.malformed, RelTable.absent⟩)]⟩
        ["alpha", "beta"] "DE" "today 12-m" "de-DE" 5).trends_verfuegbar = true ∧
    ((get_trend_daten_fuer_keywords
        ⟨none, fun _ => .ok [("alpha", [Cell.num 10]), ("beta", [Cell.bad])]
          [("beta", ⟨RelTable.malformed, RelTable.absent⟩)]⟩
        ["alpha", "beta"] "DE" "today 12-m" "de-DE" 5).ergebnisse.map
      (fun r => r.keyword)) = cleanKeywords ["alpha", "beta"] ∧
    List.Forall₂ (fun a b => a.keyword = b.keyword ∧ (a.keyword ≠ "beta" → a = b))
      (get_trend_daten_fuer_keywords
        ⟨none, fun _ => .ok [("alpha", [Cell.num 10]), ("beta", [Cell.num 20])] []⟩
        ["alpha", "beta"] "DE" "today 12-m" "de-DE" 5).ergebnisse
      (get_trend_daten_fuer_keywords
        ⟨none, fun _ => .ok [("alpha", [Cell.num 10]), ("beta", [Cell.bad])]
          [("beta", ⟨RelTable.malformed, RelTable.absent⟩)]⟩
        ["alpha", "beta"] "DE" "today 12-m" "de-DE" 5).ergebnisse ∧
    (∀ j iot' rel',
      (⟨none, fun _ => .ok [("alpha", [Cell.num 10]), ("beta", [Cell.bad])]
          [("beta", ⟨RelTable.malformed, RelTable.absent⟩)]⟩ : Env).batch j
        = .ok iot' rel' →
      "beta" ∈ (chunks (cleanKeywords ["alpha", "beta"])).getD j [] →
      ∀ rec ∈ (get_trend_daten_fuer_keywords
          ⟨none, fun _ => .ok [("alpha", [Cell.num 10]), ("beta", [Cell.bad])]
            [("beta", ⟨RelTable.malformed, RelTable.absent⟩)]⟩
          ["alpha", "beta"] "DE" "today 12-m" "de-DE" 5).ergebnisse,
        rec.keyword = "beta" →
        (trendExtractionRaises iot' "beta" = true → rec.trend_index = none) ∧
        (relatedExtractionRaises ((rel'.lookup "beta").getD ⟨.absent, .absent⟩) 5
            = true → rec.verwandte_suchanfragen = [])) :=
  C10_per_keyword_containment
    ⟨none, fun _ => .ok [("alpha", [Cell.num 10]), ("beta", [Cell.num 20])] []⟩
    ⟨none, fun _ => .ok [("alpha", [Cell.num 10]), ("beta", [Cell.bad])]
      [("beta", ⟨RelTable.malformed, RelTable.absent⟩)]⟩
    ["alpha", "beta"] "DE" "today 12-m" "de-DE" "DE" "today 12-m" "de-DE" 5 "beta"
    (by decide) (by decide) (by decide) (by decide)

end

end KeywordAgent
